import Mathlib

/-!
Shallow embedding of the `retry` package (retry execution engine, client-side
retry budget, moving-window rate estimator, exponential backoff).

Conventions of the embedding:
* Go `time.Time` is modelled as `Nat`: nanoseconds since the Go zero time,
  so `t.IsZero()` is `t = 0` and `t.Before(u)` is `t < u`.
* Go `time.Duration` (an `int64` of nanoseconds) is modelled as `Int` where
  it can be negative (backoff parameters) and as `Nat` for elapsed spans.
* Go `float64` quantities are modelled exactly as `ℚ`, extended with the
  IEEE special values `NaN`/`±Inf` (type `GoFloat`) where Go division can
  produce them.  The inputs exercised here are small integers and exact
  binary fractions, on which `float64` arithmetic is exact.
* Mutation of a receiver is modelled by returning the updated value.
-/

namespace Retry

/-- Result of a Go `float64` computation: an exact rational, or one of the
IEEE special values produced by division. -/
inductive GoFloat where
  | nan : GoFloat
  | inf : GoFloat
  | ninf : GoFloat
  | val : ℚ → GoFloat
deriving DecidableEq

/-- Go `float64` division `a / b`, including the IEEE zero-denominator
behaviour: `0/0 = NaN`, `x/0 = ±Inf` for `x ≠ 0`. -/
def GoFloat.div : GoFloat → GoFloat → GoFloat
  | .nan, _ => .nan
  | _, .nan => .nan
  | .inf, .inf => .nan
  | .inf, .ninf => .nan
  | .ninf, .inf => .nan
  | .ninf, .ninf => .nan
  | .inf, .val q => if q < 0 then .ninf else .inf
  | .ninf, .val q => if q < 0 then .inf else .ninf
  | .val _, .inf => .val 0
  | .val _, .ninf => .val 0
  | .val a, .val b =>
    if b = 0 then (if a = 0 then .nan else if 0 < a then .inf else .ninf)
    else .val (a / b)

/-- Go `float64` comparison `a > b`; any comparison involving NaN is false. -/
def GoFloat.gt : GoFloat → GoFloat → Bool
  | .nan, _ => false
  | _, .nan => false
  | .inf, .inf => false
  | .inf, _ => true
  | .ninf, _ => false
  | .val _, .inf => false
  | .val _, .ninf => true
  | .val a, .val b => decide (b < a)

/-- `timeRoundDown(t, d)` from budget.go: round `t` down to a multiple of
`d`.  (Go implements this as `t.Round(d)` adjusted downward; for
non-negative `t` that is flooring.) -/
def timeRoundDown (t d : Nat) : Nat := t / d * d

/-- The `movingRate` struct from budget.go: counts per bucket plus the
last-seen timestamp. -/
structure MovingRate where
  BucketLength : Nat
  BucketNum : Nat
  counts : List Int
  lastUpdate : Nat
deriving DecidableEq

/-- `newMovingRate()` from budget.go: 60 one-second buckets, zero state. -/
def newMovingRate : MovingRate :=
  { BucketLength := 1000000000, BucketNum := 60, counts := [], lastUpdate := 0 }

/-- `mr.counts[len(mr.counts)-1] += n`.  Callers (`Add`) reach this only
with non-empty `counts` (`forward` guarantees it); on `[]` Go would panic,
the model returns `[]`. -/
def incLast (n : Int) : List Int → List Int
  | [] => []
  | [c] => [c + n]
  | c :: rest => c :: incLast n rest

/-- `movingRate.count()` from budget.go: sum of the buckets; once the
history is full (more than `BucketNum` buckets), the oldest bucket is
weighted by the fraction of it still inside the window. -/
def MovingRate.count (mr : MovingRate) : ℚ :=
  if mr.counts.length ≤ mr.BucketNum then
    (mr.counts.map (fun c : Int => (c : ℚ))).sum
  else
    let oldestFraction : ℚ :=
      1 - ((mr.lastUpdate - timeRoundDown mr.lastUpdate mr.BucketLength : Nat) : ℚ) /
        (mr.BucketLength : ℚ)
    oldestFraction * ((mr.counts.headD 0 : Int) : ℚ) +
      ((mr.counts.drop 1).map (fun c : Int => (c : ℚ))).sum

/-- `movingRate.second()` from budget.go: the elapsed window length in
seconds (`Duration.Seconds()` divides nanoseconds by `1e9`). -/
def MovingRate.second (mr : MovingRate) : ℚ :=
  if mr.counts.length = 0 then 0
  else if mr.counts.length ≤ mr.BucketNum then
    (((mr.counts.length - 1) * mr.BucketLength +
      (mr.lastUpdate - timeRoundDown mr.lastUpdate mr.BucketLength) : Nat) : ℚ) /
      (1000000000 : ℚ)
  else
    ((mr.BucketNum * mr.BucketLength : Nat) : ℚ) / (1000000000 : ℚ)

/-- `movingRate.shift(n)` from budget.go: cap `n` at `BucketNum+1`, append
that many zero buckets, drop the oldest so at most `BucketNum+1` remain,
and advance `lastUpdate` by the shifted amount. -/
def MovingRate.shift (mr : MovingRate) (n : Nat) : MovingRate :=
  let n' := min n (mr.BucketNum + 1)
  let cs := mr.counts ++ List.replicate n' 0
  { mr with
    counts := cs.drop (cs.length - (mr.BucketNum + 1)),
    lastUpdate := timeRoundDown mr.lastUpdate mr.BucketLength + n' * mr.BucketLength }

/-- `movingRate.forward(t)` from budget.go.  The Go function defers
`mr.lastUpdate = t`, so `lastUpdate` ends up `t` on every path. -/
def MovingRate.forward (mr : MovingRate) (t : Nat) : MovingRate :=
  if mr.lastUpdate = 0 then
    { mr with counts := [0], lastUpdate := t }
  else
    let rt := timeRoundDown t mr.BucketLength
    if rt ≤ mr.lastUpdate then { mr with lastUpdate := t }
    else
      let n := (rt - timeRoundDown mr.lastUpdate mr.BucketLength) / mr.BucketLength
      { mr.shift n with lastUpdate := t }

/-- `movingRate.Add(t, n)` from budget.go: a no-op when `t` precedes
`lastUpdate`, otherwise forward to `t` and add `n` to the newest bucket. -/
def MovingRate.Add (mr : MovingRate) (t : Nat) (n : Int) : MovingRate :=
  if t < mr.lastUpdate then mr
  else
    let mr' := mr.forward t
    { mr' with counts := incLast n mr'.counts }

/-- `movingRate.Rate(t)` from budget.go: `NaN` when `t` precedes
`lastUpdate`, otherwise forward to `t` and return `count()/second()`
(with no guard against a zero count or zero elapsed time). -/
def MovingRate.Rate (mr : MovingRate) (t : Nat) : GoFloat × MovingRate :=
  if t < mr.lastUpdate then (GoFloat.nan, mr)
  else
    let mr' := mr.forward t
    (GoFloat.div (GoFloat.val mr'.count) (GoFloat.val mr'.second), mr')

/-- Total number of recorded events currently held by the estimator. -/
def MovingRate.totalCount (mr : MovingRate) : Int := mr.counts.sum

/-- One external operation on a moving-rate estimator. -/
inductive MREvent where
  | add (t : Nat) (n : Int) : MREvent
  | rate (t : Nat) : MREvent
deriving DecidableEq

/-- Apply one estimator operation. -/
def MovingRate.step (mr : MovingRate) : MREvent → MovingRate
  | .add t n => mr.Add t n
  | .rate t => (mr.Rate t).2

/-- Run a sequence of estimator operations. -/
def MovingRate.runEvents (mr : MovingRate) (es : List MREvent) : MovingRate :=
  es.foldl MovingRate.step mr

/-- The `Budget` struct from budget.go: two thresholds plus the two
estimators (which start out nil). -/
structure Budget where
  Rate : ℚ
  Ratio : ℚ
  initialCalls : Option MovingRate
  retriedCalls : Option MovingRate
deriving DecidableEq

/-- `(*Budget).check(isRetry)` from budget.go, at current time `t`.  A nil
receiver (`none`) always permits.  Otherwise nil estimators are replaced by
`newMovingRate()`, a non-retry is recorded as an initial call and permitted,
and a retry is refused exactly when `initialRate > Rate` and
`retriedRate/initialRate > Ratio`; only a permitted retry is recorded.
(`Budget.sendOK` of the sibling source version has the same body.) -/
def Budget.check (b : Option Budget) (isRetry : Bool) (t : Nat) :
    Bool × Option Budget :=
  match b with
  | none => (true, none)
  | some b =>
    let retried := b.retriedCalls.getD newMovingRate
    let initial := b.initialCalls.getD newMovingRate
    if !isRetry then
      (true, some { b with
        initialCalls := some (initial.Add t 1),
        retriedCalls := some retried })
    else
      let ir := initial.Rate t
      let rr := retried.Rate t
      if (ir.1.gt (GoFloat.val b.Rate)) && ((rr.1.div ir.1).gt (GoFloat.val b.Ratio)) then
        (false, some { b with
          initialCalls := some ir.2,
          retriedCalls := some rr.2 })
      else
        (true, some { b with
          initialCalls := some ir.2,
          retriedCalls := some (rr.2.Add t 1) })

/-- Truncation of a rational toward zero: the effect of Go's
`time.Duration(f)` conversion from `float64` to `int64`. -/
def truncQ (q : ℚ) : Int :=
  if q < 0 then -((-q).num / ((-q).den : Int)) else q.num / (q.den : Int)

/-- The `ExpBackoff` option from retry.go (`Base`/`Max` are durations). -/
structure ExpBackoff where
  Base : Int
  Max : Int
  Factor : ℚ

/-- `ExpBackoff.delay(attempt)` from retry.go:
`base * factor^attempt` truncated to a duration, returned as `Base` when
below `Base`, else as `Max` when above `Max`. -/
def ExpBackoff.delay (b : ExpBackoff) (attempt : Nat) : Int :=
  let f : ℚ := (b.Base : ℚ) * b.Factor ^ attempt
  let d : Int := truncQ f
  if d < b.Base then b.Base
  else if b.Max < d then b.Max
  else d

/-- Modelled from the spec's words ("`base * factor^attempt`, clamped to
`[base, max]`"): the two-sided clamp of the same quantity, for comparison
with the source's `ExpBackoff.delay`. -/
def delayClamped (b : ExpBackoff) (attempt : Nat) : Int :=
  max b.Base (min (truncQ ((b.Base : ℚ) * b.Factor ^ attempt)) b.Max)

/-- Go error values as the retry engine can observe them. -/
inductive GoError where
  /-- a plain error (does not implement the package's `Error` interface) -/
  | base (tag : Nat) : GoError
  /-- an error implementing `Error`, with the result of `Temporary()` -/
  | tempErr (tag : Nat) (temp : Bool) : GoError
  /-- `permanentError{error}`: the wrapper produced by `Abort` -/
  | permanent (inner : GoError) : GoError
  /-- the `errors.New("retry budget exhausted")` sentinel made by `do` -/
  | budgetExhausted : GoError
  /-- `ctx.Err()`: the outer cancellation signal's own error value -/
  | ctxErr : GoError
deriving DecidableEq

/-- `Abort(err)` from retry.go: wrap `err` in `permanentError`. -/
def Abort (e : GoError) : GoError := GoError.permanent e

/-- Whether the error implements the `Error` interface, i.e. the type
assertion `err.(Error)` succeeds. -/
def GoError.isError : GoError → Bool
  | .tempErr _ _ => true
  | .permanent _ => true
  | _ => false

/-- `Temporary()` for errors implementing `Error`
(`permanentError.Temporary()` is always false). -/
def GoError.temporary : GoError → Bool
  | .tempErr _ t => t
  | .permanent _ => false
  | _ => true

/-- The test `retryErr, ok := err.(Error); ok && !retryErr.Temporary()`
from `do`: does this error abort the retry loop? -/
def stopPermanent (e : GoError) : Bool := e.isError && !e.temporary

/-- The unwrapping in `do`: `permanentError` is unwrapped to its cause,
any other error is returned as-is. -/
def unwrapPermanent : GoError → GoError
  | .permanent inner => inner
  | e => e

/-- The configuration `do` runs under, with the quantities the engine
itself observes: the budget's verdict per attempt, the callback's running
time and result per attempt, the jittered backoff delay per attempt, and
the `Attempts` cap (a Go `int`; `0` means unbounded). -/
structure Cfg where
  check : Nat → Bool
  dur : Nat → Nat
  res : Nat → Option GoError
  delay : Nat → Nat
  attempts : Int

/-- Observable engine events: a budget consultation (with the `i != 0`
flag `do` passes), the start of a callback invocation, a completed
backoff sleep. -/
inductive Ev where
  | consult (i : Nat) (isRetry : Bool) : Ev
  | invoke (i : Nat) : Ev
  | sleep (i : Nat) : Ev
deriving DecidableEq

/-- Result of a run of `do`: the returned error (`none` = nil), the time
at which `do` returned, and the event trace. -/
structure Outcome where
  err : Option GoError
  time : Nat
  trace : List Ev
deriving DecidableEq

/-- Whether the outer cancellation signal (firing at the given absolute
time, `none` = never) is seen by a `select` whose other arm becomes ready
at time `endT`: the `ctx.Done()` arm wins when it fires strictly first. -/
def fires (cancel : Option Nat) (endT : Nat) : Bool :=
  match cancel with
  | none => false
  | some c => decide (c < endT)

/-- The loop of `do` from retry.go under the timing model: attempt `i`
beginning at absolute time `now`, with `last` the error of the previous
attempt (`var err error`, initially nil).  Each iteration: loop condition
`Attempts(i) < opts.Attempts || opts.Attempts == 0`; budget check
(`opts.budget.check(i != 0)`), refusal returns the budget-exhausted
sentinel; the callback runs concurrently and the engine selects between
its completion (at `now + dur i`) and cancellation; nil → return nil;
non-temporary `Error` → return it unwrapped; otherwise select between the
backoff timer and cancellation, then loop.  `fuel` bounds the number of
iterations modelled (`none` = ran out of fuel, only possible with an
unbounded cap). -/
def doRun (cfg : Cfg) (cancel : Option Nat) :
    Nat → Nat → Nat → Option GoError → Option Outcome
  | 0, _, _, _ => none
  | fuel + 1, i, now, last =>
    if (i : Int) < cfg.attempts ∨ cfg.attempts = 0 then
      if cfg.check i = false then
        some ⟨some GoError.budgetExhausted, now, [Ev.consult i (i != 0)]⟩
      else if fires cancel (now + cfg.dur i) then
        some ⟨some GoError.ctxErr, max now (cancel.getD 0),
          [Ev.consult i (i != 0), Ev.invoke i]⟩
      else
        match cfg.res i with
        | none => some ⟨none, now + cfg.dur i, [Ev.consult i (i != 0), Ev.invoke i]⟩
        | some e =>
          if stopPermanent e then
            some ⟨some (unwrapPermanent e), now + cfg.dur i,
              [Ev.consult i (i != 0), Ev.invoke i]⟩
          else if fires cancel (now + cfg.dur i + cfg.delay i) then
            some ⟨some GoError.ctxErr, max (now + cfg.dur i) (cancel.getD 0),
              [Ev.consult i (i != 0), Ev.invoke i]⟩
          else
            (doRun cfg cancel fuel (i + 1) (now + cfg.dur i + cfg.delay i) (some e)).map
              (fun o => ⟨o.err, o.time,
                Ev.consult i (i != 0) :: Ev.invoke i :: Ev.sleep i :: o.trace⟩)
    else
      some ⟨last, now, []⟩

/-- A full run of `do`: attempt 0 at time 0 with a nil last error. -/
def doTimed (cfg : Cfg) (cancel : Option Nat) (fuel : Nat) : Option Outcome :=
  doRun cfg cancel fuel 0 0 none

/-- Number of callback invocations recorded in a trace. -/
def countInvokes (tr : List Ev) : Nat :=
  (tr.filter (fun e => match e with | .invoke _ => true | _ => false)).length

/-- Total time of `m` full failed-attempt iterations starting at attempt
`i`: callback duration plus backoff delay for each. -/
def segTime (cfg : Cfg) : Nat → Nat → Nat
  | _, 0 => 0
  | i, m + 1 => cfg.dur i + cfg.delay i + segTime cfg (i + 1) m

/-- Trace of `m` full failed-attempt iterations starting at attempt `i`. -/
def segTrace (cfg : Cfg) : Nat → Nat → List Ev
  | _, 0 => []
  | i, m + 1 =>
    Ev.consult i (i != 0) :: Ev.invoke i :: Ev.sleep i :: segTrace cfg (i + 1) m

/-- The last-error variable after `m` failed attempts starting at `i`. -/
def segLast (cfg : Cfg) : Nat → Nat → Option GoError → Option GoError
  | _, 0, last => last
  | i, m + 1, _ => segLast cfg (i + 1) m (cfg.res i)

/-! ### Lemmas about the moving-rate estimator -/

theorem incLast_length (n : Int) (l : List Int) : (incLast n l).length = l.length := by
  induction l with
  | nil => rfl
  | cons c rest ih =>
    cases rest with
    | nil => rfl
    | cons d rest' => simp [incLast] at ih ⊢; omega

theorem incLast_sum (n : Int) (l : List Int) (h : l ≠ []) :
    (incLast n l).sum = l.sum + n := by
  induction l with
  | nil => exact absurd rfl h
  | cons c rest ih =>
    cases rest with
    | nil => simp [incLast]
    | cons d rest' =>
      have := ih (by simp)
      simp [incLast] at this ⊢
      omega

theorem incLast_allZero (n : Int) (l : List Int) (hl : ∀ c ∈ l, c = 0) (hn : n = 0) :
    ∀ c ∈ incLast n l, c = 0 := by
  induction l with
  | nil => simp [incLast]
  | cons c rest ih =>
    cases rest with
    | nil =>
      intro x hx
      simp [incLast] at hx
      have := hl c (by simp)
      omega
    | cons d rest' =>
      intro x hx
      simp only [incLast, List.mem_cons] at hx
      rcases hx with h1 | h2
      · exact h1 ▸ hl c (by simp)
      · exact ih (fun y hy => hl y (List.mem_cons_of_mem c hy)) x h2

theorem shift_counts_length_le (mr : MovingRate) (n : Nat) :
    (mr.shift n).counts.length ≤ mr.BucketNum + 1 := by
  simp [MovingRate.shift]
  omega

theorem shift_counts_length_eq (mr : MovingRate) (n : Nat)
    (h : mr.counts.length = mr.BucketNum + 1) :
    (mr.shift n).counts.length = mr.BucketNum + 1 := by
  simp [MovingRate.shift]
  omega

theorem shift_counts_ne_nil (mr : MovingRate) (n : Nat) (h : mr.counts ≠ []) :
    (mr.shift n).counts ≠ [] := by
  rw [← List.length_pos] at h ⊢
  simp [MovingRate.shift]
  omega

theorem shift_allZero (mr : MovingRate) (n : Nat) (h : ∀ c ∈ mr.counts, c = 0) :
    ∀ c ∈ (mr.shift n).counts, c = 0 := by
  intro c hc
  have hc' := List.mem_of_mem_drop hc
  rcases List.mem_append.mp hc' with h1 | h2
  · exact h c h1
  · exact List.eq_of_mem_replicate h2

theorem forward_lastUpdate (mr : MovingRate) (t : Nat) :
    (mr.forward t).lastUpdate = t := by
  rw [MovingRate.forward]
  dsimp only
  split
  · rfl
  · split <;> rfl

theorem forward_counts_length_le (mr : MovingRate) (t : Nat)
    (h : mr.counts.length ≤ mr.BucketNum + 1) :
    (mr.forward t).counts.length ≤ mr.BucketNum + 1 := by
  rw [MovingRate.forward]
  dsimp only
  split
  · simp
  · split
    · simpa using h
    · exact shift_counts_length_le mr _

theorem forward_counts_length_populated (mr : MovingRate) (t : Nat)
    (h : mr.counts.length = mr.BucketNum + 1) (h0 : mr.lastUpdate ≠ 0) :
    (mr.forward t).counts.length = mr.BucketNum + 1 := by
  rw [MovingRate.forward]
  dsimp only
  split
  · exact absurd (by assumption) h0
  · split
    · simpa using h
    · exact shift_counts_length_eq mr _ h

theorem forward_counts_ne_nil (mr : MovingRate) (t : Nat)
    (h : mr.lastUpdate = 0 ∨ mr.counts ≠ []) :
    (mr.forward t).counts ≠ [] := by
  rw [MovingRate.forward]
  dsimp only
  split
  · simp
  · rcases h with h0 | hne
    · exact absurd h0 (by assumption)
    · split
      · simpa using hne
      · exact shift_counts_ne_nil mr _ hne

theorem forward_allZero (mr : MovingRate) (t : Nat) (h : ∀ c ∈ mr.counts, c = 0) :
    ∀ c ∈ (mr.forward t).counts, c = 0 := by
  rw [MovingRate.forward]
  dsimp only
  split
  · simp
  · split
    · simpa using h
    · exact shift_allZero mr _ h

theorem forward_BucketNum (mr : MovingRate) (t : Nat) :
    (mr.forward t).BucketNum = mr.BucketNum := by
  rw [MovingRate.forward]
  dsimp only
  split
  · rfl
  · split
    · rfl
    · rfl

theorem step_BucketNum (mr : MovingRate) (e : MREvent) :
    (mr.step e).BucketNum = mr.BucketNum := by
  cases e with
  | add t n =>
    rw [MovingRate.step, MovingRate.Add]
    split
    · rfl
    · exact forward_BucketNum mr t
  | rate t =>
    rw [MovingRate.step, MovingRate.Rate]
    split
    · rfl
    · exact forward_BucketNum mr t

theorem step_counts_length_le (mr : MovingRate) (e : MREvent)
    (h : mr.counts.length ≤ mr.BucketNum + 1) :
    (mr.step e).counts.length ≤ mr.BucketNum + 1 := by
  cases e with
  | add t n =>
    rw [MovingRate.step, MovingRate.Add]
    split
    · exact h
    · simpa [incLast_length] using forward_counts_length_le mr t h
  | rate t =>
    rw [MovingRate.step, MovingRate.Rate]
    split
    · exact h
    · exact forward_counts_length_le mr t h

theorem step_counts_length_populated (mr : MovingRate) (e : MREvent)
    (h : mr.counts.length = mr.BucketNum + 1) (h0 : mr.lastUpdate ≠ 0) :
    (mr.step e).counts.length = mr.BucketNum + 1 := by
  cases e with
  | add t n =>
    rw [MovingRate.step, MovingRate.Add]
    split
    · exact h
    · simpa [incLast_length] using forward_counts_length_populated mr t h h0
  | rate t =>
    rw [MovingRate.step, MovingRate.Rate]
    split
    · exact h
    · exact forward_counts_length_populated mr t h h0

theorem step_allZero (mr : MovingRate) (e : MREvent)
    (hz : ∀ c ∈ mr.counts, c = 0)
    (he : ∀ u k, e = MREvent.add u k → k = 0) :
    ∀ c ∈ (mr.step e).counts, c = 0 := by
  cases e with
  | add t n =>
    rw [MovingRate.step, MovingRate.Add]
    split
    · exact hz
    · exact incLast_allZero n _ (forward_allZero mr t hz) (he t n rfl)
  | rate t =>
    rw [MovingRate.step, MovingRate.Rate]
    split
    · exact hz
    · exact forward_allZero mr t hz

theorem runEvents_counts_length_le (es : List MREvent) (mr : MovingRate)
    (h : mr.counts.length ≤ mr.BucketNum + 1) :
    (mr.runEvents es).counts.length ≤ (mr.runEvents es).BucketNum + 1 := by
  induction es generalizing mr with
  | nil => simpa [MovingRate.runEvents] using h
  | cons e es ih =>
    have h' : (mr.step e).counts.length ≤ (mr.step e).BucketNum + 1 := by
      rw [step_BucketNum]
      exact step_counts_length_le mr e h
    simpa [MovingRate.runEvents] using ih (mr.step e) h'

theorem runEvents_allZero (es : List MREvent) (mr : MovingRate)
    (hz : ∀ c ∈ mr.counts, c = 0)
    (hes : ∀ u k, MREvent.add u k ∈ es → k = 0) :
    ∀ c ∈ (mr.runEvents es).counts, c = 0 := by
  induction es generalizing mr with
  | nil => simpa [MovingRate.runEvents] using hz
  | cons e es ih =>
    have hz' := step_allZero mr e hz
      (fun u k hk => hes u k (hk ▸ List.mem_cons_self e es))
    simpa [MovingRate.runEvents] using
      ih (mr.step e) hz' (fun u k hk => hes u k (List.mem_cons_of_mem e hk))

theorem count_allZero (mr : MovingRate) (h : ∀ c ∈ mr.counts, c = 0) :
    mr.count = 0 := by
  rw [MovingRate.count]
  split
  · apply List.sum_eq_zero
    intro x hx
    rcases List.mem_map.mp hx with ⟨z, hz2, rfl⟩
    rw [h z hz2]
    exact Int.cast_zero
  · have hhead : mr.counts.headD 0 = 0 := by
      cases hc : mr.counts with
      | nil => rfl
      | cons c rest => exact h c (by simp [hc])
    have hdrop : ((mr.counts.drop 1).map (fun c : Int => (c : ℚ))).sum = 0 := by
      apply List.sum_eq_zero
      intro x hx
      rcases List.mem_map.mp hx with ⟨z, hz2, rfl⟩
      rw [h z (List.mem_of_mem_drop hz2)]
      exact Int.cast_zero
    dsimp only
    rw [hhead, hdrop]
    simp

theorem rate_allZero (mr : MovingRate) (t : Nat)
    (hz : ∀ c ∈ mr.counts, c = 0) (hv : ¬ t < mr.lastUpdate) :
    (mr.Rate t).1 =
      if (mr.forward t).second = 0 then GoFloat.nan else GoFloat.val 0 := by
  rw [MovingRate.Rate, if_neg hv]
  dsimp only
  rw [count_allZero _ (forward_allZero mr t hz)]
  by_cases hs : (mr.forward t).second = 0
  · rw [if_pos hs, hs]
    simp [GoFloat.div]
  · rw [if_neg hs]
    simp [GoFloat.div, hs, zero_div]

theorem runEvents_BucketNum (es : List MREvent) (mr : MovingRate) :
    (mr.runEvents es).BucketNum = mr.BucketNum := by
  induction es generalizing mr with
  | nil => rfl
  | cons e es ih =>
    calc ((mr.step e).runEvents es).BucketNum = (mr.step e).BucketNum := ih (mr.step e)
    _ = mr.BucketNum := step_BucketNum mr e

/-! ### Lemmas about the budget -/

theorem forward_counts_of_le (mr : MovingRate) (t : Nat) (h0 : mr.lastUpdate ≠ 0)
    (hrt : timeRoundDown t mr.BucketLength ≤ mr.lastUpdate) :
    (mr.forward t).counts = mr.counts := by
  rw [MovingRate.forward]
  dsimp only
  rw [if_neg h0, if_pos hrt]

theorem rate_snd_of_le (mr : MovingRate) (t : Nat) (h : mr.lastUpdate ≤ t) :
    (mr.Rate t).2 = mr.forward t := by
  rw [MovingRate.Rate, if_neg (not_lt.mpr h)]

theorem totalCount_rate_add (mr : MovingRate) (t : Nat) (h0 : 0 < t)
    (hle : mr.lastUpdate ≤ t) (hne : mr.lastUpdate = 0 ∨ mr.counts ≠ []) :
    ((mr.Rate t).2.Add t 1).totalCount = (mr.Rate t).2.totalCount + 1 := by
  rw [rate_snd_of_le mr t hle]
  have hlu : (mr.forward t).lastUpdate = t := forward_lastUpdate mr t
  have hnil : (mr.forward t).counts ≠ [] := forward_counts_ne_nil mr t hne
  rw [MovingRate.Add, if_neg (by rw [hlu]; omega)]
  have hX : ((mr.forward t).forward t).counts = (mr.forward t).counts :=
    forward_counts_of_le (mr.forward t) t (by rw [hlu]; omega)
      (by rw [hlu]; exact Nat.div_mul_le_self t _)
  dsimp only [MovingRate.totalCount]
  rw [hX, incLast_sum 1 _ hnil]

theorem check_not_retry (b : Option Budget) (t : Nat) :
    (Budget.check b false t).1 = true := by
  cases b <;> simp [Budget.check]

/-! ### Lemmas about the engine loop -/

theorem countInvokes_nil : countInvokes [] = 0 := rfl

theorem countInvokes_cons_consult (i : Nat) (r : Bool) (tr : List Ev) :
    countInvokes (Ev.consult i r :: tr) = countInvokes tr := by
  simp [countInvokes]

theorem countInvokes_cons_invoke (i : Nat) (tr : List Ev) :
    countInvokes (Ev.invoke i :: tr) = countInvokes tr + 1 := by
  simp [countInvokes]

theorem countInvokes_cons_sleep (i : Nat) (tr : List Ev) :
    countInvokes (Ev.sleep i :: tr) = countInvokes tr := by
  simp [countInvokes]

theorem countInvokes_append (t1 t2 : List Ev) :
    countInvokes (t1 ++ t2) = countInvokes t1 + countInvokes t2 := by
  simp [countInvokes, List.filter_append]

theorem doRun_time_mono (cfg : Cfg) (cancel : Option Nat) :
    ∀ (fuel i now : Nat) (last : Option GoError) (o : Outcome),
      doRun cfg cancel fuel i now last = some o → now ≤ o.time := by
  intro fuel
  induction fuel with
  | zero =>
    intro i now last o h
    exact absurd h (by simp [doRun])
  | succ f ih =>
    intro i now last o h
    rw [doRun] at h
    split at h
    · split at h
      · obtain rfl := Option.some.inj h
        exact le_refl now
      · split at h
        · obtain rfl := Option.some.inj h
          exact Nat.le_max_left _ _
        · split at h
          · obtain rfl := Option.some.inj h
            exact Nat.le_add_right _ _
          · rename_i x e heq
            split at h
            · obtain rfl := Option.some.inj h
              exact Nat.le_add_right _ _
            · split at h
              · obtain rfl := Option.some.inj h
                simp only [Outcome.time]
                omega
              · cases hrec : doRun cfg cancel f (i + 1)
                    (now + cfg.dur i + cfg.delay i) (some e) with
                | none => rw [hrec] at h; simp at h
                | some o2 =>
                  rw [hrec] at h
                  simp only [Option.map_some'] at h
                  obtain rfl := Option.some.inj h
                  have := ih (i + 1) (now + cfg.dur i + cfg.delay i) (some e) o2 hrec
                  simp only [Outcome.time]
                  omega
    · obtain rfl := Option.some.inj h
      exact le_refl now

theorem doRun_consult_flags (cfg : Cfg) (cancel : Option Nat) :
    ∀ (fuel i now : Nat) (last : Option GoError) (o : Outcome),
      doRun cfg cancel fuel i now last = some o →
      ∀ j r, Ev.consult j r ∈ o.trace → r = (j != 0) := by
  intro fuel
  induction fuel with
  | zero =>
    intro i now last o h
    exact absurd h (by simp [doRun])
  | succ f ih =>
    intro i now last o h j r
    rw [doRun] at h
    split at h
    · split at h
      · obtain rfl := Option.some.inj h
        intro hmem
        simp only [Outcome.trace, List.mem_singleton, Ev.consult.injEq] at hmem
        rw [hmem.2, hmem.1]
      · split at h
        · obtain rfl := Option.some.inj h
          intro hmem
          simp only [Outcome.trace, List.mem_cons, List.mem_singleton] at hmem
          rcases hmem with hmem | hmem
          · rw [(Ev.consult.injEq _ _ _ _).mp hmem |>.2,
              (Ev.consult.injEq _ _ _ _).mp hmem |>.1]
          · exact absurd hmem (by simp)
        · split at h
          · obtain rfl := Option.some.inj h
            intro hmem
            simp only [Outcome.trace, List.mem_cons, List.mem_singleton] at hmem
            rcases hmem with hmem | hmem
            · rw [(Ev.consult.injEq _ _ _ _).mp hmem |>.2,
                (Ev.consult.injEq _ _ _ _).mp hmem |>.1]
            · exact absurd hmem (by simp)
          · rename_i x e heq
            split at h
            · obtain rfl := Option.some.inj h
              intro hmem
              simp only [Outcome.trace, List.mem_cons, List.mem_singleton] at hmem
              rcases hmem with hmem | hmem
              · rw [(Ev.consult.injEq _ _ _ _).mp hmem |>.2,
                  (Ev.consult.injEq _ _ _ _).mp hmem |>.1]
              · exact absurd hmem (by simp)
            · split at h
              · obtain rfl := Option.some.inj h
                intro hmem
                simp only [Outcome.trace, List.mem_cons, List.mem_singleton] at hmem
                rcases hmem with hmem | hmem
                · rw [(Ev.consult.injEq _ _ _ _).mp hmem |>.2,
                    (Ev.consult.injEq _ _ _ _).mp hmem |>.1]
                · exact absurd hmem (by simp)
              · cases hrec : doRun cfg cancel f (i + 1)
                    (now + cfg.dur i + cfg.delay i) (some e) with
                | none => rw [hrec] at h; simp at h
                | some o2 =>
                  rw [hrec] at h
                  simp only [Option.map_some'] at h
                  obtain rfl := Option.some.inj h
                  intro hmem
                  simp only [Outcome.trace, List.mem_cons] at hmem
                  rcases hmem with hmem | hmem | hmem | hmem
                  · rw [(Ev.consult.injEq _ _ _ _).mp hmem |>.2,
                      (Ev.consult.injEq _ _ _ _).mp hmem |>.1]
                  · exact absurd hmem (by simp)
                  · exact absurd hmem (by simp)
                  · exact ih (i + 1) _ (some e) o2 hrec j r hmem
    · obtain rfl := Option.some.inj h
      intro hmem
      exact absurd hmem (by simp)

theorem doRun_invokes_le (cfg : Cfg) (cancel : Option Nat) (hpos : 0 < cfg.attempts) :
    ∀ (fuel i now : Nat) (last : Option GoError) (o : Outcome),
      doRun cfg cancel fuel i now last = some o →
      countInvokes o.trace ≤ (cfg.attempts - (i : Int)).toNat := by
  intro fuel
  induction fuel with
  | zero =>
    intro i now last o h
    exact absurd h (by simp [doRun])
  | succ f ih =>
    intro i now last o h
    rw [doRun] at h
    split at h
    case isTrue hcond =>
      have hi : (i : Int) < cfg.attempts := by
        rcases hcond with hc | hc
        · exact hc
        · omega
      split at h
      · obtain rfl := Option.some.inj h
        simp only [Outcome.trace, countInvokes_cons_consult, countInvokes_nil]
        omega
      · split at h
        · obtain rfl := Option.some.inj h
          simp only [Outcome.trace, countInvokes_cons_consult,
            countInvokes_cons_invoke, countInvokes_nil]
          omega
        · split at h
          · obtain rfl := Option.some.inj h
            simp only [Outcome.trace, countInvokes_cons_consult,
              countInvokes_cons_invoke, countInvokes_nil]
            omega
          · rename_i x e heq
            split at h
            · obtain rfl := Option.some.inj h
              simp only [Outcome.trace, countInvokes_cons_consult,
                countInvokes_cons_invoke, countInvokes_nil]
              omega
            · split at h
              · obtain rfl := Option.some.inj h
                simp only [Outcome.trace, countInvokes_cons_consult,
                  countInvokes_cons_invoke, countInvokes_nil]
                omega
              · cases hrec : doRun cfg cancel f (i + 1)
                    (now + cfg.dur i + cfg.delay i) (some e) with
                | none => rw [hrec] at h; simp at h
                | some o2 =>
                  rw [hrec] at h
                  simp only [Option.map_some'] at h
                  obtain rfl := Option.some.inj h
                  have := ih (i + 1) _ (some e) o2 hrec
                  simp only [Outcome.trace, countInvokes_cons_consult,
                    countInvokes_cons_invoke, countInvokes_cons_sleep] at this ⊢
                  omega
    · obtain rfl := Option.some.inj h
      simp only [Outcome.trace, countInvokes_nil]
      omega

theorem segLast_res (cfg : Cfg) :
    ∀ (m i : Nat) (last : Option GoError),
      segLast cfg i (m + 1) last = cfg.res (i + m) := by
  intro m
  induction m with
  | zero =>
    intro i last
    simp [segLast]
  | succ m ih =>
    intro i last
    rw [segLast, ih (i + 1) (cfg.res i)]
    congr 1
    omega

theorem countInvokes_segTrace (cfg : Cfg) :
    ∀ (m i : Nat), countInvokes (segTrace cfg i m) = m := by
  intro m
  induction m with
  | zero => intro i; rfl
  | succ m ih =>
    intro i
    rw [segTrace, countInvokes_cons_consult, countInvokes_cons_invoke,
      countInvokes_cons_sleep, ih (i + 1)]

theorem doRun_unroll (cfg : Cfg) :
    ∀ (m fuel i now : Nat) (last : Option GoError),
      (∀ j, i ≤ j → j < i + m →
        (((j : Int) < cfg.attempts ∨ cfg.attempts = 0) ∧ cfg.check j = true ∧
          ∃ e, cfg.res j = some e ∧ stopPermanent e = false)) →
      doRun cfg none (m + fuel) i now last =
        (doRun cfg none fuel (i + m) (now + segTime cfg i m) (segLast cfg i m last)).map
          (fun o => ⟨o.err, o.time, segTrace cfg i m ++ o.trace⟩) := by
  intro m
  induction m with
  | zero =>
    intro fuel i now last _
    simp only [Nat.zero_add, Nat.add_zero, segTime, segTrace, segLast, List.nil_append]
    cases doRun cfg none fuel i now last with
    | none => rfl
    | some o => rfl
  | succ m ih =>
    intro fuel i now last hyp
    obtain ⟨hcond, hcheck, e, hres, hstop⟩ := hyp i (le_refl i) (by omega)
    rw [show m + 1 + fuel = (m + fuel) + 1 by omega, doRun, if_pos hcond,
      if_neg (by simp [hcheck]), if_neg (by simp [fires]), hres]
    dsimp only
    rw [if_neg (by simp [hstop]), if_neg (by simp [fires]),
      ih fuel (i + 1) (now + cfg.dur i + cfg.delay i) (some e)
        (fun j h1 h2 => hyp j (by omega) (by omega)), Option.map_map]
    have hidx : i + 1 + m = i + (m + 1) := by omega
    have htime : now + cfg.dur i + cfg.delay i + segTime cfg (i + 1) m =
        now + segTime cfg i (m + 1) := by
      rw [segTime]
      omega
    have hlast : segLast cfg (i + 1) m (some e) = segLast cfg i (m + 1) last := by
      rw [segLast, hres]
    rw [hidx, htime, hlast]
    cases doRun cfg none fuel (i + (m + 1)) (now + segTime cfg i (m + 1))
        (segLast cfg i (m + 1) last) with
    | none => rfl
    | some o =>
      simp only [Option.map_some', Function.comp]
      rw [segTrace]
      rfl

theorem doRun_cancel_compare (cfg : Cfg) (c : Nat) :
    ∀ (fuel i now : Nat) (last : Option GoError) (o : Outcome),
      now ≤ c →
      doRun cfg none fuel i now last = some o →
      (doRun cfg (some c) fuel i now last).map (fun o2 => (o2.err, o2.time)) =
        some (if o.time ≤ c then (o.err, o.time) else (some GoError.ctxErr, c)) := by
  intro fuel
  induction fuel with
  | zero =>
    intro i now last o hnow h
    exact absurd h (by simp [doRun])
  | succ f ih =>
    intro i now last o hnow h
    rw [doRun] at h
    rw [doRun]
    by_cases hcond : ((i : Int) < cfg.attempts ∨ cfg.attempts = 0)
    case neg =>
      rw [if_neg hcond] at h ⊢
      obtain rfl := Option.some.inj h
      simp only [Outcome.time, Outcome.err]
      rw [if_pos hnow]
      simp
    case pos =>
      rw [if_pos hcond] at h ⊢
      by_cases hchk : cfg.check i = false
      · rw [if_pos hchk] at h ⊢
        obtain rfl := Option.some.inj h
        simp only [Outcome.time, Outcome.err]
        rw [if_pos hnow]
        simp
      · rw [if_neg hchk] at h ⊢
        rw [if_neg (by simp [fires])] at h
        by_cases hf1 : fires (some c) (now + cfg.dur i) = true
        · rw [if_pos hf1]
          have hc1 : c < now + cfg.dur i := by simpa [fires] using hf1
          have hot : now + cfg.dur i ≤ o.time := by
            split at h
            · obtain rfl := Option.some.inj h
              simp
            · rename_i x e heq
              split at h
              · obtain rfl := Option.some.inj h
                simp
              · rw [if_neg (by simp [fires])] at h
                cases hrec : doRun cfg none f (i + 1)
                    (now + cfg.dur i + cfg.delay i) (some e) with
                | none => rw [hrec] at h; simp at h
                | some o2 =>
                  rw [hrec] at h
                  simp only [Option.map_some'] at h
                  obtain rfl := Option.some.inj h
                  have := doRun_time_mono cfg none f (i + 1) _ (some e) o2 hrec
                  simp only [Outcome.time]
                  omega
          rw [if_neg (by omega)]
          simp only [Option.map_some', Option.getD]
          rw [Nat.max_eq_right hnow]
        · rw [if_neg hf1]
          have hc1 : now + cfg.dur i ≤ c := by
            simp [fires] at hf1
            omega
          cases hres : cfg.res i with
          | none =>
            rw [hres] at h
            dsimp only at h ⊢
            obtain rfl := Option.some.inj h
            simp only [Outcome.time, Outcome.err]
            rw [if_pos hc1]
            simp
          | some e =>
            rw [hres] at h
            dsimp only at h ⊢
            by_cases hsp : stopPermanent e = true
            · rw [if_pos hsp] at h ⊢
              obtain rfl := Option.some.inj h
              simp only [Outcome.time, Outcome.err]
              rw [if_pos hc1]
              simp
            · rw [if_neg hsp] at h ⊢
              rw [if_neg (by simp [fires])] at h
              by_cases hf2 : fires (some c) (now + cfg.dur i + cfg.delay i) = true
              · rw [if_pos hf2]
                cases hrec : doRun cfg none f (i + 1)
                    (now + cfg.dur i + cfg.delay i) (some e) with
                | none => rw [hrec] at h; simp at h
                | some o2 =>
                  rw [hrec] at h
                  simp only [Option.map_some'] at h
                  obtain rfl := Option.some.inj h
                  have hmono := doRun_time_mono cfg none f (i + 1) _ (some e) o2 hrec
                  have hc2 : c < now + cfg.dur i + cfg.delay i := by
                    simpa [fires] using hf2
                  simp only [Outcome.time, Outcome.err]
                  rw [if_neg (by omega)]
                  simp only [Option.map_some', Option.getD]
                  rw [Nat.max_eq_right hc1]
              · rw [if_neg hf2]
                have hc2 : now + cfg.dur i + cfg.delay i ≤ c := by
                  simp [fires] at hf2
                  omega
                cases hrec : doRun cfg none f (i + 1)
                    (now + cfg.dur i + cfg.delay i) (some e) with
                | none => rw [hrec] at h; simp at h
                | some o2 =>
                  rw [hrec] at h
                  simp only [Option.map_some'] at h
                  obtain rfl := Option.some.inj h
                  have hih := ih (i + 1) (now + cfg.dur i + cfg.delay i)
                    (some e) o2 hc2 hrec
                  simp only [Outcome.time, Outcome.err, Option.map_map]
                  have hcomp : ((fun o2 : Outcome => (o2.err, o2.time)) ∘
                      (fun o3 : Outcome => Outcome.mk o3.err o3.time
                        (Ev.consult i (i != 0) :: Ev.invoke i :: Ev.sleep i :: o3.trace))) =
                      fun o3 : Outcome => (o3.err, o3.time) := rfl
                  rw [hcomp]
                  exact hih

/-! ### Lemmas about the backoff curve -/

theorem truncQ_eq (q : ℚ) :
    truncQ q = if q < 0 then -(Int.floor (-q)) else Int.floor q := by
  rw [truncQ]
  split_ifs
  · rw [Rat.floor_def]
  · rw [Rat.floor_def]

theorem truncQ_mono {p q : ℚ} (h : p ≤ q) : truncQ p ≤ truncQ q := by
  rw [truncQ_eq, truncQ_eq]
  split_ifs with hp hq hq
  · have := Int.floor_mono (neg_le_neg h)
    omega
  · have h1 : (0:Int) ≤ Int.floor q := Int.floor_nonneg.mpr (not_lt.mp hq)
    have h2 : (0:Int) ≤ Int.floor (-p) := Int.floor_nonneg.mpr (by linarith)
    omega
  · exfalso
    have h1 : (0:ℚ) ≤ p := not_lt.mp hp
    have h2 : q < 0 := by assumption
    linarith
  · exact Int.floor_mono h

theorem truncQ_intCast (z : Int) : truncQ ((z : Int) : ℚ) = z := by
  rw [truncQ_eq]
  split_ifs with hz
  · have : (0:ℚ) ≤ -(z:ℚ) := by linarith
    rw [show -((z:Int):ℚ) = ((-z : Int) : ℚ) by push_cast; ring, Int.floor_intCast]
    omega
  · rw [Int.floor_intCast]

theorem delay_eq_clamped (b : ExpBackoff) (hBM : b.Base ≤ b.Max) (i : Nat) :
    b.delay i = delayClamped b i := by
  rw [ExpBackoff.delay, delayClamped]
  split_ifs <;> omega

theorem delay_le_max (b : ExpBackoff) (hBM : b.Base ≤ b.Max) (i : Nat) :
    b.delay i ≤ b.Max := by
  rw [delay_eq_clamped b hBM, delayClamped]
  omega

theorem delay_mono_ge_one (b : ExpBackoff) (hB : 0 ≤ b.Base) (hBM : b.Base ≤ b.Max)
    (hF : 1 ≤ b.Factor) (i : Nat) : b.delay i ≤ b.delay (i + 1) := by
  have hpow : b.Factor ^ i ≤ b.Factor ^ (i + 1) := pow_le_pow_right₀ hF (Nat.le_succ i)
  have hf : (b.Base : ℚ) * b.Factor ^ i ≤ (b.Base : ℚ) * b.Factor ^ (i + 1) :=
    mul_le_mul_of_nonneg_left hpow (by exact_mod_cast hB)
  have hd := truncQ_mono hf
  rw [delay_eq_clamped b hBM i, delay_eq_clamped b hBM (i + 1), delayClamped, delayClamped]
  omega

theorem delay_const_lt_one (b : ExpBackoff) (hB : 0 ≤ b.Base) (hBM : b.Base ≤ b.Max)
    (hF0 : 0 ≤ b.Factor) (hF1 : b.Factor < 1) (i : Nat) : b.delay i = b.Base := by
  have hpow : b.Factor ^ i ≤ 1 := pow_le_one₀ hF0 (le_of_lt hF1)
  have hf : (b.Base : ℚ) * b.Factor ^ i ≤ ((b.Base : Int) : ℚ) :=
    mul_le_of_le_one_right (by exact_mod_cast hB) hpow
  have hf0 : ((0 : Int) : ℚ) ≤ (b.Base : ℚ) * b.Factor ^ i := by
    push_cast
    exact mul_nonneg (by exact_mod_cast hB) (pow_nonneg hF0 i)
  have hd1 : truncQ ((b.Base : ℚ) * b.Factor ^ i) ≤ b.Base := by
    have := truncQ_mono hf
    rwa [truncQ_intCast] at this
  have hd0 : 0 ≤ truncQ ((b.Base : ℚ) * b.Factor ^ i) := by
    have := truncQ_mono hf0
    rwa [truncQ_intCast] at this
  rw [ExpBackoff.delay]
  split_ifs <;> omega

/-! ### Claim theorems -/

/-- C7: for every estimator state and every timestamp `t` strictly earlier
than the estimator's last-seen timestamp, `Add(t, n)` leaves the entire
estimator state unchanged, for every `n`. -/
theorem add_past_timestamp_noop (mr : MovingRate) (t : Nat) (n : Int)
    (h : t < mr.lastUpdate) : mr.Add t n = mr := by
  rw [MovingRate.Add, if_pos h]

theorem add_past_timestamp_noop_witness :
    (4 : Nat) < (MovingRate.mk 1000000000 60 [3] 5).lastUpdate ∧
    (MovingRate.mk 1000000000 60 [3] 5).Add 4 7 = MovingRate.mk 1000000000 60 [3] 5 :=
  ⟨by decide, add_past_timestamp_noop (MovingRate.mk 1000000000 60 [3] 5) 4 7 (by decide)⟩

/-- C8: over every sequence of `Add`/`Rate` calls starting from
`newMovingRate` the bucket list never exceeds `BucketNum + 1` entries
(the shift count is capped), and a fully populated, initialized estimator
keeps exactly `BucketNum + 1` buckets across any further operation. -/
theorem bucket_count_invariant (es : List MREvent) (mr : MovingRate) (e : MREvent) :
    (newMovingRate.runEvents es).counts.length ≤ newMovingRate.BucketNum + 1 ∧
    (mr.counts.length = mr.BucketNum + 1 → mr.lastUpdate ≠ 0 →
      (mr.step e).counts.length = mr.BucketNum + 1) := by
  constructor
  · have h := runEvents_counts_length_le es newMovingRate (by simp [newMovingRate])
    rwa [runEvents_BucketNum] at h
  · intro h h0
    exact step_counts_length_populated mr e h h0

theorem bucket_count_invariant_witness :
    ((newMovingRate.runEvents [MREvent.add 5 1, MREvent.rate 7]).counts.length ≤
      newMovingRate.BucketNum + 1) ∧
    ((MovingRate.mk 1000000000 1 [2, 3] 5).step (MREvent.add 2000000000 7)).counts.length =
      (MovingRate.mk 1000000000 1 [2, 3] 5).BucketNum + 1 :=
  ⟨(bucket_count_invariant [MREvent.add 5 1, MREvent.rate 7]
      (MovingRate.mk 1000000000 1 [2, 3] 5) (MREvent.add 2000000000 7)).1,
   (bucket_count_invariant [MREvent.add 5 1, MREvent.rate 7]
      (MovingRate.mk 1000000000 1 [2, 3] 5) (MREvent.add 2000000000 7)).2
     (by decide) (by decide)⟩

/-- C6 (counterexample): with zero events recorded, `Rate` at the valid
(non-past) timestamp `1000000000` — exactly one bucket length after the
zero time — divides `0.0/0.0` and returns NaN, not `0.0`. -/
theorem rate_zero_events_nan :
    (newMovingRate.Rate 1000000000).1 = GoFloat.nan ∧
    ¬ (1000000000 < newMovingRate.lastUpdate) := by
  constructor
  · simp [MovingRate.Rate, newMovingRate, MovingRate.forward, MovingRate.count,
      MovingRate.second, timeRoundDown, GoFloat.div]
  · simp [newMovingRate]

/-- C6 (amended): for every sequence of `Add`/`Rate` calls recording zero
events and every valid (non-past) timestamp, `Rate` returns `0.0` whenever
the elapsed window `second()` of the forwarded state is nonzero; when that
elapsed time is zero (a single partial bucket at an exact bucket boundary)
the division `0.0/0.0` yields NaN instead. -/
theorem rate_zero_events_amended (es : List MREvent) (t : Nat)
    (hes : ∀ u n, MREvent.add u n ∈ es → n = 0)
    (hv : ¬ t < (newMovingRate.runEvents es).lastUpdate) :
    ((newMovingRate.runEvents es).Rate t).1 =
      if ((newMovingRate.runEvents es).forward t).second = 0 then GoFloat.nan
      else GoFloat.val 0 :=
  rate_allZero _ t (runEvents_allZero es newMovingRate (by simp [newMovingRate]) hes) hv

theorem rate_zero_events_amended_witness :
    ((newMovingRate.runEvents []).Rate 1).1 =
      (if ((newMovingRate.runEvents []).forward 1).second = 0 then GoFloat.nan
       else GoFloat.val 0) :=
  rate_zero_events_amended [] 1 (by simp) (by decide)

/-- C9: whenever the uncancelled run of `do` would still be executing at
the time `c` the outer cancellation signal fires, the cancelled run
returns the signal's own error value (`ctx.Err()`) at time `c` — it does
not block on the in-flight operation, whose result is discarded; when the
run would already have finished by `c`, cancellation changes nothing.  -/
theorem cancellation_priority (cfg : Cfg) (fuel c : Nat) (o : Outcome)
    (h : doTimed cfg none fuel = some o) :
    (doTimed cfg (some c) fuel).map (fun o2 => (o2.err, o2.time)) =
      some (if o.time ≤ c then (o.err, o.time) else (some GoError.ctxErr, c)) :=
  doRun_cancel_compare cfg c fuel 0 0 none o (Nat.zero_le c) h

theorem cancellation_priority_witness :
    doTimed (Cfg.mk (fun _ => true) (fun _ => 10)
        (fun j => some (GoError.tempErr j true)) (fun _ => 5) 2) none 3 =
      some (Outcome.mk (some (GoError.tempErr 1 true)) 30
        [Ev.consult 0 false, Ev.invoke 0, Ev.sleep 0,
         Ev.consult 1 true, Ev.invoke 1, Ev.sleep 1]) ∧
    (doTimed (Cfg.mk (fun _ => true) (fun _ => 10)
        (fun j => some (GoError.tempErr j true)) (fun _ => 5) 2) (some 12) 3).map
        (fun o2 => (o2.err, o2.time)) =
      some (if (Outcome.mk (some (GoError.tempErr 1 true)) 30
          [Ev.consult 0 false, Ev.invoke 0, Ev.sleep 0,
           Ev.consult 1 true, Ev.invoke 1, Ev.sleep 1]).time ≤ 12
        then ((Outcome.mk (some (GoError.tempErr 1 true)) 30
          [Ev.consult 0 false, Ev.invoke 0, Ev.sleep 0,
           Ev.consult 1 true, Ev.invoke 1, Ev.sleep 1]).err,
          (Outcome.mk (some (GoError.tempErr 1 true)) 30
          [Ev.consult 0 false, Ev.invoke 0, Ev.sleep 0,
           Ev.consult 1 true, Ev.invoke 1, Ev.sleep 1]).time)
        else (some GoError.ctxErr, 12)) :=
  ⟨by decide,
   cancellation_priority (Cfg.mk (fun _ => true) (fun _ => 10)
       (fun j => some (GoError.tempErr j true)) (fun _ => 5) 2) 3 12
     (Outcome.mk (some (GoError.tempErr 1 true)) 30
       [Ev.consult 0 false, Ev.invoke 0, Ev.sleep 0,
        Ev.consult 1 true, Ev.invoke 1, Ev.sleep 1]) (by decide)⟩

/-- C10: for every `Attempts(n)` option with `n < 0` and every operation,
`Do` returns nil — reporting success — without invoking the operation even
once: the loop condition fails immediately and the zero-valued error
variable is returned. -/
theorem negative_attempts_returns_nil (cfg : Cfg) (cancel : Option Nat) (fuel : Nat)
    (hneg : cfg.attempts < 0) (hfuel : 1 ≤ fuel) :
    doTimed cfg cancel fuel = some ⟨none, 0, []⟩ := by
  obtain ⟨f, rfl⟩ : ∃ f, fuel = f + 1 := ⟨fuel - 1, by omega⟩
  rw [doTimed, doRun, if_neg]
  intro h
  rcases h with h | h
  · omega
  · omega

/-- C1: a nil Budget always permits; a non-retry call is recorded as an
initial call and permitted; a retry is refused exactly when the initial
rate exceeds `Rate` and the retried/initial ratio exceeds `Ratio`; a
refused retry records nothing beyond the window forwarding done by the
rate queries; a permitted retry is recorded and its event total grows by
one (for any time the estimator can actually reach: `t` not before
`lastUpdate`, non-zero, and a state Go would not panic on). -/
theorem budget_check_admission (b : Budget) (isRetry : Bool) (t : Nat) :
    Budget.check none isRetry t = (true, none) ∧
    (Budget.check (some b) false t).1 = true ∧
    (Budget.check (some b) false t).2 = some { b with
        initialCalls := some ((b.initialCalls.getD newMovingRate).Add t 1),
        retriedCalls := some (b.retriedCalls.getD newMovingRate) } ∧
    ((Budget.check (some b) true t).1 = false ↔
      (((b.initialCalls.getD newMovingRate).Rate t).1.gt (GoFloat.val b.Rate) = true ∧
       ((((b.retriedCalls.getD newMovingRate).Rate t).1.div
          ((b.initialCalls.getD newMovingRate).Rate t).1).gt
            (GoFloat.val b.Ratio)) = true)) ∧
    ((Budget.check (some b) true t).1 = false →
      (Budget.check (some b) true t).2 = some { b with
        initialCalls := some ((b.initialCalls.getD newMovingRate).Rate t).2,
        retriedCalls := some ((b.retriedCalls.getD newMovingRate).Rate t).2 }) ∧
    ((Budget.check (some b) true t).1 = true →
      (Budget.check (some b) true t).2 = some { b with
        initialCalls := some ((b.initialCalls.getD newMovingRate).Rate t).2,
        retriedCalls := some (((b.retriedCalls.getD newMovingRate).Rate t).2.Add t 1) }) ∧
    (0 < t → (b.retriedCalls.getD newMovingRate).lastUpdate ≤ t →
      ((b.retriedCalls.getD newMovingRate).lastUpdate = 0 ∨
        (b.retriedCalls.getD newMovingRate).counts ≠ []) →
      (((b.retriedCalls.getD newMovingRate).Rate t).2.Add t 1).totalCount =
        ((b.retriedCalls.getD newMovingRate).Rate t).2.totalCount + 1) := by
  have hkey : Budget.check (some b) true t =
      if (((b.initialCalls.getD newMovingRate).Rate t).1.gt (GoFloat.val b.Rate)) &&
          ((((b.retriedCalls.getD newMovingRate).Rate t).1.div
            ((b.initialCalls.getD newMovingRate).Rate t).1).gt (GoFloat.val b.Ratio)) then
        (false, some { b with
          initialCalls := some ((b.initialCalls.getD newMovingRate).Rate t).2,
          retriedCalls := some ((b.retriedCalls.getD newMovingRate).Rate t).2 })
      else
        (true, some { b with
          initialCalls := some ((b.initialCalls.getD newMovingRate).Rate t).2,
          retriedCalls := some (((b.retriedCalls.getD newMovingRate).Rate t).2.Add t 1) }) :=
    rfl
  refine ⟨rfl, by simp [Budget.check], by simp [Budget.check], ?_, ?_, ?_,
    fun h0 hle hne => totalCount_rate_add _ t h0 hle hne⟩
  · rw [hkey]
    cases hc : (((b.initialCalls.getD newMovingRate).Rate t).1.gt (GoFloat.val b.Rate)) &&
        ((((b.retriedCalls.getD newMovingRate).Rate t).1.div
          ((b.initialCalls.getD newMovingRate).Rate t).1).gt (GoFloat.val b.Ratio)) with
    | false =>
      rw [if_neg (by simp)]
      constructor
      · intro h
        exact absurd h (by simp)
      · rintro ⟨hx, hy⟩
        rw [hx, hy] at hc
        simp at hc
    | true =>
      rw [if_pos rfl]
      constructor
      · intro _
        simp only [Bool.and_eq_true] at hc
        exact hc
      · intro _
        rfl
  · rw [hkey]
    cases hc : (((b.initialCalls.getD newMovingRate).Rate t).1.gt (GoFloat.val b.Rate)) &&
        ((((b.retriedCalls.getD newMovingRate).Rate t).1.div
          ((b.initialCalls.getD newMovingRate).Rate t).1).gt (GoFloat.val b.Ratio)) with
    | false =>
      rw [if_neg (by simp)]
      intro h
      exact absurd h (by simp)
    | true =>
      rw [if_pos rfl]
      intro _
      rfl
  · rw [hkey]
    cases hc : (((b.initialCalls.getD newMovingRate).Rate t).1.gt (GoFloat.val b.Rate)) &&
        ((((b.retriedCalls.getD newMovingRate).Rate t).1.div
          ((b.initialCalls.getD newMovingRate).Rate t).1).gt (GoFloat.val b.Ratio)) with
    | false =>
      rw [if_neg (by simp)]
      intro _
      rfl
    | true =>
      rw [if_pos rfl]
      intro h
      exact absurd h (by simp)

theorem budget_check_admission_witness :
    Budget.check none true 1 = (true, none) ∧
    (Budget.check (some (Budget.mk 0 0 none none)) false 1).1 = true ∧
    (Budget.check (some (Budget.mk 0 0 none none)) false 1).2 =
      some { Budget.mk 0 0 none none with
        initialCalls := some (((Budget.mk 0 0 none none).initialCalls.getD
          newMovingRate).Add 1 1),
        retriedCalls := some ((Budget.mk 0 0 none none).retriedCalls.getD
          newMovingRate) } ∧
    ((Budget.check (some (Budget.mk 0 0 none none)) true 1).1 = false ↔
      ((((Budget.mk 0 0 none none).initialCalls.getD newMovingRate).Rate 1).1.gt
        (GoFloat.val (Budget.mk 0 0 none none).Rate) = true ∧
       (((((Budget.mk 0 0 none none).retriedCalls.getD newMovingRate).Rate 1).1.div
          (((Budget.mk 0 0 none none).initialCalls.getD newMovingRate).Rate 1).1).gt
            (GoFloat.val (Budget.mk 0 0 none none).Ratio)) = true)) ∧
    ((Budget.check (some (Budget.mk 0 0 none none)) true 1).1 = false →
      (Budget.check (some (Budget.mk 0 0 none none)) true 1).2 =
        some { Budget.mk 0 0 none none with
          initialCalls := some (((Budget.mk 0 0 none none).initialCalls.getD
            newMovingRate).Rate 1).2,
          retriedCalls := some (((Budget.mk 0 0 none none).retriedCalls.getD
            newMovingRate).Rate 1).2 }) ∧
    ((Budget.check (some (Budget.mk 0 0 none none)) true 1).1 = true →
      (Budget.check (some (Budget.mk 0 0 none none)) true 1).2 =
        some { Budget.mk 0 0 none none with
          initialCalls := some (((Budget.mk 0 0 none none).initialCalls.getD
            newMovingRate).Rate 1).2,
          retriedCalls := some ((((Budget.mk 0 0 none none).retriedCalls.getD
            newMovingRate).Rate 1).2.Add 1 1) }) ∧
    (0 < 1 → ((Budget.mk 0 0 none none).retriedCalls.getD newMovingRate).lastUpdate ≤ 1 →
      (((Budget.mk 0 0 none none).retriedCalls.getD newMovingRate).lastUpdate = 0 ∨
        ((Budget.mk 0 0 none none).retriedCalls.getD newMovingRate).counts ≠ []) →
      ((((Budget.mk 0 0 none none).retriedCalls.getD newMovingRate).Rate 1).2.Add 1 1).totalCount =
        (((Budget.mk 0 0 none none).retriedCalls.getD newMovingRate).Rate 1).2.totalCount + 1) :=
  budget_check_admission (Budget.mk 0 0 none none) true 1

/-- C2: with `Attempts(n)`, `n > 0`, the callback is invoked at most `n`
times on any run; if it succeeds immediately `Do` returns nil after exactly
one invocation; if all `n` attempts fail with retryable errors, `Do`
returns the error of the `n`-th (last) invocation. -/
theorem attempts_cap (cfg : Cfg) (n fuel : Nat) (cancel : Option Nat) (o : Outcome)
    (hA : cfg.attempts = (n : Int)) (hn : 0 < n) :
    (doTimed cfg cancel fuel = some o → countInvokes o.trace ≤ n) ∧
    (cancel = none → cfg.check 0 = true → cfg.res 0 = none → 1 ≤ fuel →
      doTimed cfg cancel fuel =
        some ⟨none, cfg.dur 0, [Ev.consult 0 false, Ev.invoke 0]⟩) ∧
    (cancel = none → (∀ j, j < n → cfg.check j = true) →
      (∀ j, j < n → ∃ e, cfg.res j = some e ∧ stopPermanent e = false) →
      n < fuel →
      doTimed cfg cancel fuel =
        some ⟨cfg.res (n - 1), segTime cfg 0 n, segTrace cfg 0 n⟩ ∧
      countInvokes (segTrace cfg 0 n) = n) := by
  refine ⟨?_, ?_, ?_⟩
  · intro h
    have hb := doRun_invokes_le cfg cancel (by rw [hA]; exact_mod_cast hn)
      fuel 0 0 none o h
    rw [hA] at hb
    omega
  · rintro rfl hchk hres hfuel
    obtain ⟨f, rfl⟩ : ∃ f, fuel = f + 1 := ⟨fuel - 1, by omega⟩
    rw [doTimed, doRun, if_pos (Or.inl (by rw [hA]; exact_mod_cast hn)),
      if_neg (by simp [hchk]), if_neg (by simp [fires]), hres]
    simp
  · rintro rfl hchk hres hfuel
    have hyp' : ∀ j, 0 ≤ j → j < 0 + n →
        (((j : Int) < cfg.attempts ∨ cfg.attempts = 0) ∧ cfg.check j = true ∧
          ∃ e, cfg.res j = some e ∧ stopPermanent e = false) :=
      fun j _ h2 => ⟨Or.inl (by rw [hA]; exact_mod_cast (by omega : j < n)),
        hchk j (by omega), hres j (by omega)⟩
    refine ⟨?_, countInvokes_segTrace cfg n 0⟩
    rw [doTimed, show fuel = n + (fuel - n) by omega, doRun_unroll cfg n _ 0 0 none hyp']
    obtain ⟨f, hf⟩ : ∃ f, fuel - n = f + 1 := ⟨fuel - n - 1, by omega⟩
    rw [hf, doRun, if_neg (by rw [hA]; intro hor; rcases hor with hor | hor <;> omega)]
    rw [show n = (n - 1) + 1 by omega]
    rw [segLast_res cfg (n - 1) 0 none]
    simp

theorem attempts_cap_witness :
    (Cfg.mk (fun _ => true) (fun _ => 1) (fun j => some (GoError.tempErr j true))
        (fun _ => 1) 2).attempts = ((2 : Nat) : Int) ∧ 0 < 2 ∧
    ((doTimed (Cfg.mk (fun _ => true) (fun _ => 1) (fun j => some (GoError.tempErr j true))
        (fun _ => 1) 2) none 3 =
      some ⟨some (GoError.tempErr 1 true), 4,
        [Ev.consult 0 false, Ev.invoke 0, Ev.sleep 0,
         Ev.consult 1 true, Ev.invoke 1, Ev.sleep 1]⟩ →
      countInvokes
        [Ev.consult 0 false, Ev.invoke 0, Ev.sleep 0,
         Ev.consult 1 true, Ev.invoke 1, Ev.sleep 1] ≤ 2) ∧
     (none = (none : Option Nat) →
      (Cfg.mk (fun _ => true) (fun _ => 1) (fun j => some (GoError.tempErr j true))
        (fun _ => 1) 2).check 0 = true →
      (Cfg.mk (fun _ => true) (fun _ => 1) (fun j => some (GoError.tempErr j true))
        (fun _ => 1) 2).res 0 = none → 1 ≤ 3 →
      doTimed (Cfg.mk (fun _ => true) (fun _ => 1) (fun j => some (GoError.tempErr j true))
        (fun _ => 1) 2) none 3 =
        some ⟨none,
          (Cfg.mk (fun _ => true) (fun _ => 1) (fun j => some (GoError.tempErr j true))
            (fun _ => 1) 2).dur 0, [Ev.consult 0 false, Ev.invoke 0]⟩) ∧
     (none = (none : Option Nat) →
      (∀ j, j < 2 → (Cfg.mk (fun _ => true) (fun _ => 1)
        (fun j => some (GoError.tempErr j true)) (fun _ => 1) 2).check j = true) →
      (∀ j, j < 2 → ∃ e, (Cfg.mk (fun _ => true) (fun _ => 1)
        (fun j => some (GoError.tempErr j true)) (fun _ => 1) 2).res j = some e ∧
        stopPermanent e = false) →
      2 < 3 →
      doTimed (Cfg.mk (fun _ => true) (fun _ => 1) (fun j => some (GoError.tempErr j true))
        (fun _ => 1) 2) none 3 =
        some ⟨(Cfg.mk (fun _ => true) (fun _ => 1) (fun j => some (GoError.tempErr j true))
            (fun _ => 1) 2).res (2 - 1),
          segTime (Cfg.mk (fun _ => true) (fun _ => 1)
            (fun j => some (GoError.tempErr j true)) (fun _ => 1) 2) 0 2,
          segTrace (Cfg.mk (fun _ => true) (fun _ => 1)
            (fun j => some (GoError.tempErr j true)) (fun _ => 1) 2) 0 2⟩ ∧
      countInvokes (segTrace (Cfg.mk (fun _ => true) (fun _ => 1)
        (fun j => some (GoError.tempErr j true)) (fun _ => 1) 2) 0 2) = 2)) :=
  ⟨by decide, by decide,
   attempts_cap (Cfg.mk (fun _ => true) (fun _ => 1)
     (fun j => some (GoError.tempErr j true)) (fun _ => 1) 2) 2 3 none
     ⟨some (GoError.tempErr 1 true), 4,
       [Ev.consult 0 false, Ev.invoke 0, Ev.sleep 0,
        Ev.consult 1 true, Ev.invoke 1, Ev.sleep 1]⟩ (by decide) (by decide)⟩

/-- C3: once an attempt returns an error whose `Temporary()` is false (in
particular an `Abort`-wrapped one), no further attempts occur and the
error is returned with the `permanentError` wrapper unwrapped; `Abort`
always classifies as permanent and unwraps to its original cause; the
callback is invoked exactly `k+1` times when the permanent error occurs
on attempt `k`. -/
theorem permanent_error_termination (cfg : Cfg) (fuel k : Nat) (e e2 : GoError)
    (hchk : ∀ j, j ≤ k → cfg.check j = true)
    (hres : ∀ j, j < k → ∃ e', cfg.res j = some e' ∧ stopPermanent e' = false)
    (hk : cfg.res k = some e) (hstop : stopPermanent e = true)
    (hcond : (k : Int) < cfg.attempts ∨ cfg.attempts = 0)
    (hfuel : k < fuel) :
    doTimed cfg none fuel =
      some ⟨some (unwrapPermanent e), segTime cfg 0 k + cfg.dur k,
        segTrace cfg 0 k ++ [Ev.consult k (k != 0), Ev.invoke k]⟩ ∧
    countInvokes (segTrace cfg 0 k ++ [Ev.consult k (k != 0), Ev.invoke k]) = k + 1 ∧
    stopPermanent (Abort e2) = true ∧ unwrapPermanent (Abort e2) = e2 := by
  have hyp' : ∀ j, 0 ≤ j → j < 0 + k →
      (((j : Int) < cfg.attempts ∨ cfg.attempts = 0) ∧ cfg.check j = true ∧
        ∃ e', cfg.res j = some e' ∧ stopPermanent e' = false) := by
    intro j _ h2
    refine ⟨?_, hchk j (by omega), hres j (by omega)⟩
    rcases hcond with hc | hc
    · exact Or.inl (by omega)
    · exact Or.inr hc
  refine ⟨?_, ?_, rfl, rfl⟩
  · rw [doTimed, show fuel = k + (fuel - k) by omega, doRun_unroll cfg k _ 0 0 none hyp']
    obtain ⟨f, hf⟩ : ∃ f, fuel - k = f + 1 := ⟨fuel - k - 1, by omega⟩
    rw [hf, doRun]
    simp only [Nat.zero_add]
    rw [if_pos hcond, if_neg (by simp [hchk k (le_refl k)]),
      if_neg (by simp [fires]), hk]
    simp [hstop]
  · rw [countInvokes_append, countInvokes_segTrace, countInvokes_cons_consult,
      countInvokes_cons_invoke, countInvokes_nil]

theorem permanent_error_termination_witness :
    doTimed (Cfg.mk (fun _ => true) (fun _ => 1)
        (fun j => if j = 0 then some (GoError.tempErr 0 true)
                  else some (Abort (GoError.base 7))) (fun _ => 1) 4) none 2 =
      some ⟨some (unwrapPermanent (Abort (GoError.base 7))),
        segTime (Cfg.mk (fun _ => true) (fun _ => 1)
          (fun j => if j = 0 then some (GoError.tempErr 0 true)
                    else some (Abort (GoError.base 7))) (fun _ => 1) 4) 0 1 +
          (Cfg.mk (fun _ => true) (fun _ => 1)
            (fun j => if j = 0 then some (GoError.tempErr 0 true)
                      else some (Abort (GoError.base 7))) (fun _ => 1) 4).dur 1,
        segTrace (Cfg.mk (fun _ => true) (fun _ => 1)
          (fun j => if j = 0 then some (GoError.tempErr 0 true)
                    else some (Abort (GoError.base 7))) (fun _ => 1) 4) 0 1 ++
          [Ev.consult 1 (1 != 0), Ev.invoke 1]⟩ ∧
    countInvokes (segTrace (Cfg.mk (fun _ => true) (fun _ => 1)
        (fun j => if j = 0 then some (GoError.tempErr 0 true)
                  else some (Abort (GoError.base 7))) (fun _ => 1) 4) 0 1 ++
      [Ev.consult 1 (1 != 0), Ev.invoke 1]) = 1 + 1 ∧
    stopPermanent (Abort (GoError.base 9)) = true ∧
    unwrapPermanent (Abort (GoError.base 9)) = GoError.base 9 :=
  permanent_error_termination
    (Cfg.mk (fun _ => true) (fun _ => 1)
      (fun j => if j = 0 then some (GoError.tempErr 0 true)
                else some (Abort (GoError.base 7))) (fun _ => 1) 4) 2 1
    (Abort (GoError.base 7)) (GoError.base 9)
    (by decide) (fun j hj => ⟨GoError.tempErr 0 true, by
      interval_cases j
      · exact ⟨rfl, rfl⟩⟩)
    (by decide) (by decide) (by decide) (by decide)

/-- C4: `do` consults the budget with `isRetry = (i != 0)`, i.e. with
`true` only for attempt indices `i > 0`, and `Budget.check` never refuses
a non-retry, so the first attempt is never refused; when the budget
refuses the retry of attempt `k`, `do` returns the distinct
budget-exhausted sentinel immediately: the operation is not invoked for
attempt `k` and no backoff delay is taken (the run ends at the accumulated
time of the previous attempts, with no `invoke k` or `sleep k` event). -/
theorem budget_exhausted_termination (cfg : Cfg) (fuel k : Nat) (cancel : Option Nat)
    (o : Outcome) (b : Option Budget) (t : Nat) :
    (doTimed cfg cancel fuel = some o →
      ∀ j r, Ev.consult j r ∈ o.trace → r = (j != 0)) ∧
    (Budget.check b false t).1 = true ∧
    ((∀ j, j < k → cfg.check j = true) → cfg.check k = false →
      (∀ j, j < k → ∃ e, cfg.res j = some e ∧ stopPermanent e = false) →
      ((k : Int) < cfg.attempts ∨ cfg.attempts = 0) →
      k < fuel →
      doTimed cfg none fuel =
        some ⟨some GoError.budgetExhausted, segTime cfg 0 k,
          segTrace cfg 0 k ++ [Ev.consult k (k != 0)]⟩) := by
  refine ⟨fun h => doRun_consult_flags cfg cancel fuel 0 0 none o h,
    check_not_retry b t, ?_⟩
  intro hchk hk hres hcond hfuel
  have hyp' : ∀ j, 0 ≤ j → j < 0 + k →
      (((j : Int) < cfg.attempts ∨ cfg.attempts = 0) ∧ cfg.check j = true ∧
        ∃ e', cfg.res j = some e' ∧ stopPermanent e' = false) := by
    intro j _ h2
    refine ⟨?_, hchk j (by omega), hres j (by omega)⟩
    rcases hcond with hc | hc
    · exact Or.inl (by omega)
    · exact Or.inr hc
  rw [doTimed, show fuel = k + (fuel - k) by omega, doRun_unroll cfg k _ 0 0 none hyp']
  obtain ⟨f, hf⟩ : ∃ f, fuel - k = f + 1 := ⟨fuel - k - 1, by omega⟩
  rw [hf, doRun]
  simp only [Nat.zero_add]
  rw [if_pos hcond, if_pos hk]
  simp

theorem budget_exhausted_termination_witness :
    (doTimed (Cfg.mk (fun j => j == 0) (fun _ => 1)
        (fun j => some (GoError.tempErr j true)) (fun _ => 1) 4) none 2 =
      some ⟨some GoError.budgetExhausted, 2,
        [Ev.consult 0 false, Ev.invoke 0, Ev.sleep 0, Ev.consult 1 true]⟩ →
      ∀ j r, Ev.consult j r ∈
        (Outcome.mk (some GoError.budgetExhausted) 2
          [Ev.consult 0 false, Ev.invoke 0, Ev.sleep 0, Ev.consult 1 true]).trace →
        r = (j != 0)) ∧
    (Budget.check none false 3).1 = true ∧
    ((∀ j, j < 1 → (Cfg.mk (fun j => j == 0) (fun _ => 1)
        (fun j => some (GoError.tempErr j true)) (fun _ => 1) 4).check j = true) →
     (Cfg.mk (fun j => j == 0) (fun _ => 1)
        (fun j => some (GoError.tempErr j true)) (fun _ => 1) 4).check 1 = false →
     (∀ j, j < 1 → ∃ e, (Cfg.mk (fun j => j == 0) (fun _ => 1)
        (fun j => some (GoError.tempErr j true)) (fun _ => 1) 4).res j = some e ∧
        stopPermanent e = false) →
     ((1 : Int) < (Cfg.mk (fun j => j == 0) (fun _ => 1)
        (fun j => some (GoError.tempErr j true)) (fun _ => 1) 4).attempts ∨
      (Cfg.mk (fun j => j == 0) (fun _ => 1)
        (fun j => some (GoError.tempErr j true)) (fun _ => 1) 4).attempts = 0) →
     1 < 2 →
     doTimed (Cfg.mk (fun j => j == 0) (fun _ => 1)
        (fun j => some (GoError.tempErr j true)) (fun _ => 1) 4) none 2 =
       some ⟨some GoError.budgetExhausted,
         segTime (Cfg.mk (fun j => j == 0) (fun _ => 1)
           (fun j => some (GoError.tempErr j true)) (fun _ => 1) 4) 0 1,
         segTrace (Cfg.mk (fun j => j == 0) (fun _ => 1)
           (fun j => some (GoError.tempErr j true)) (fun _ => 1) 4) 0 1 ++
           [Ev.consult 1 (1 != 0)]⟩) :=
  budget_exhausted_termination
    (Cfg.mk (fun j => j == 0) (fun _ => 1)
      (fun j => some (GoError.tempErr j true)) (fun _ => 1) 4) 2 1 none
    (Outcome.mk (some GoError.budgetExhausted) 2
      [Ev.consult 0 false, Ev.invoke 0, Ev.sleep 0, Ev.consult 1 true])
    none 3

/-- C5 (counterexample): for the configuration `Base=10, Max=5, Factor=1/2`
the un-jittered delay of attempt 1 is 10, which exceeds `Max = 5`: the
lower clamp is applied first, so the sequence is not bounded by `Max` for
every configuration. -/
theorem backoff_delay_exceeds_max :
    ExpBackoff.delay (ExpBackoff.mk 10 5 (1/2)) 1 = 10 ∧
    (ExpBackoff.mk 10 5 (1/2)).Max < ExpBackoff.delay (ExpBackoff.mk 10 5 (1/2)) 1 := by
  have h : ExpBackoff.delay (ExpBackoff.mk 10 5 (1/2)) 1 = 10 := by
    norm_num [ExpBackoff.delay, truncQ]
  exact ⟨h, by rw [h]; norm_num⟩

/-- C5 (amended): for every configuration with `0 ≤ Base ≤ Max` and
`Factor ≥ 0`, the un-jittered delay of attempt `i` equals
`Base * Factor^i` truncated to a duration and clamped to `[Base, Max]`,
is a pure function of the attempt index, and the delay sequence is
non-decreasing and bounded above by `Max`. -/
theorem backoff_curve_amended (b : ExpBackoff) (i : Nat)
    (hB : 0 ≤ b.Base) (hBM : b.Base ≤ b.Max) (hF : 0 ≤ b.Factor) :
    b.delay i ≤ b.delay (i + 1) ∧ b.delay i ≤ b.Max ∧ b.delay i = delayClamped b i := by
  refine ⟨?_, delay_le_max b hBM i, delay_eq_clamped b hBM i⟩
  rcases le_or_lt 1 b.Factor with h1 | h1
  · exact delay_mono_ge_one b hB hBM h1 i
  · rw [delay_const_lt_one b hB hBM hF h1 i, delay_const_lt_one b hB hBM hF h1 (i + 1)]

theorem backoff_curve_amended_witness :
    (0 : Int) ≤ (ExpBackoff.mk 100 2000 2).Base ∧
    (ExpBackoff.mk 100 2000 2).Base ≤ (ExpBackoff.mk 100 2000 2).Max ∧
    (0 : ℚ) ≤ (ExpBackoff.mk 100 2000 2).Factor ∧
    (ExpBackoff.delay (ExpBackoff.mk 100 2000 2) 3 ≤
       ExpBackoff.delay (ExpBackoff.mk 100 2000 2) 4 ∧
     ExpBackoff.delay (ExpBackoff.mk 100 2000 2) 3 ≤ (ExpBackoff.mk 100 2000 2).Max ∧
     ExpBackoff.delay (ExpBackoff.mk 100 2000 2) 3 = delayClamped (ExpBackoff.mk 100 2000 2) 3) :=
  ⟨by norm_num, by norm_num, by norm_num,
   backoff_curve_amended (ExpBackoff.mk 100 2000 2) 3 (by norm_num) (by norm_num) (by norm_num)⟩

theorem negative_attempts_returns_nil_witness :
    (Cfg.mk (fun _ => true) (fun _ => 1) (fun _ => some GoError.ctxErr) (fun _ => 1)
      (-1)).attempts < 0 ∧
    doTimed (Cfg.mk (fun _ => true) (fun _ => 1) (fun _ => some GoError.ctxErr) (fun _ => 1)
      (-1)) none 1 = some ⟨none, 0, []⟩ :=
  ⟨by decide,
   negative_attempts_returns_nil
     (Cfg.mk (fun _ => true) (fun _ => 1) (fun _ => some GoError.ctxErr) (fun _ => 1) (-1))
     none 1 (by decide) (by decide)⟩

end Retry
